import Mathlib

/-!
Verification of the chess position model of the `chess` repository
(`chess_board.cc` / its header): FEN parsing, FEN serialization,
180-degree rotation, coordinate/piece text round trips.

C++ strings are modelled as `List Char` (wrapped in `String` at the API
boundary), C++ `int` as `Int` (with `Int.tmod` for the C++ `%`), and
`absl::StatusOr<T>` as `Except String T`.  The out-of-bounds write that
`ChessBoard::Fen` performs on its 8x8 `full_board` when a piece position
lies outside the grid (undefined behaviour in the C++) is modelled by
`Fen` returning `none`.
-/

namespace chess

/-- `enum class Color : bool { White, Black }`. -/
inductive Color : Type where
  | White : Color
  | Black : Color
deriving DecidableEq, Repr

/-- `enum class PieceType : char { Rook, Knight, Bishop, Queen, King, Pawn }`. -/
inductive PieceType : Type where
  | Rook : PieceType
  | Knight : PieceType
  | Bishop : PieceType
  | Queen : PieceType
  | King : PieceType
  | Pawn : PieceType
deriving DecidableEq, Repr

/-- `struct Piece { PieceType type; Color color; }`. -/
structure Piece where
  type : PieceType
  color : Color
deriving DecidableEq, Repr

/-- `enum class ChessLanguage : char { kSpanish, kEnglish, kUnicode, kEnglishFull }`. -/
inductive ChessLanguage : Type where
  | kSpanish : ChessLanguage
  | kEnglish : ChessLanguage
  | kUnicode : ChessLanguage
  | kEnglishFull : ChessLanguage
deriving DecidableEq, Repr

/-- `struct BoardPosition { int file; int rank; ... }` (1-based coordinates). -/
structure BoardPosition where
  file : Int
  rank : Int
deriving DecidableEq, Repr

/-- `struct BoardPiece { BoardPosition position; Piece piece; }`. -/
structure BoardPiece where
  position : BoardPosition
  piece : Piece
deriving DecidableEq, Repr

/-- `class ChessBoard` private state: `pieces_`, `info_`, `white_to_move_ = true`. -/
structure ChessBoard where
  pieces_ : List BoardPiece
  info_ : String := ""
  white_to_move_ : Bool := true
deriving DecidableEq, Repr

/-- `absl::ascii_isdigit`: `c` in `'0'..'9'` (numeric code in `[48, 57]`). -/
def asciiIsDigit (c : Char) : Bool :=
  48 ≤ c.toNat && c.toNat ≤ 57

/-- `absl::ascii_isupper`: `c` in `'A'..'Z'` (numeric code in `[65, 90]`). -/
def asciiIsUpper (c : Char) : Bool :=
  65 ≤ c.toNat && c.toNat ≤ 90

/-- `absl::ascii_islower`: `c` in `'a'..'z'` (numeric code in `[97, 122]`). -/
def asciiIsLower (c : Char) : Bool :=
  97 ≤ c.toNat && c.toNat ≤ 122

/-- `absl::ascii_tolower` on one character. -/
def asciiToLower (c : Char) : Char :=
  if asciiIsUpper c then Char.ofNat (c.toNat + 32) else c

/-- `absl::ascii_toupper` on one character. -/
def asciiToUpper (c : Char) : Char :=
  if asciiIsLower c then Char.ofNat (c.toNat - 32) else c

/-- `absl::StrSplit(s, sep)`: split at every occurrence of `sep`, keeping
empty pieces; the empty string yields one empty piece. -/
def splitOnChar (sep : Char) : List Char → List (List Char)
  | [] => [[]]
  | c :: rest =>
    if c = sep then
      [] :: splitOnChar sep rest
    else
      match splitOnChar sep rest with
      | [] => [[c]]
      | g :: gs => (c :: g) :: gs

/-- `absl::StrJoin(parts, sep)` for a one-character separator. -/
def intercalateChar (sep : Char) : List (List Char) → List Char
  | [] => []
  | [g] => g
  | g :: gs => g ++ sep :: intercalateChar sep gs

/-- `FileToLetter` (file-scope helper, 1-based): `'a' + file - 1`. -/
def FileToLetter (file : Int) : Char :=
  Char.ofNat ('a'.toNat + file - 1).toNat

/-- `BoardPosition::IsValid`: both coordinates in `[1, 8]`. -/
def BoardPosition.IsValid (p : BoardPosition) : Bool :=
  1 ≤ p.file && p.file ≤ 8 && 1 ≤ p.rank && p.rank ≤ 8

/-- `BoardPosition::Color`: `(file + rank) % 2 == 0 ? White : Black`
(C++ `%` on `int` is truncated remainder, `Int.tmod`). -/
def BoardPosition.Color (p : BoardPosition) : Color :=
  if (p.file + p.rank).tmod 2 = 0 then Color.White else Color.Black

/-- `BoardPosition::operator<=>`: descending rank first, then `file <=> file`. -/
def BoardPosition.spaceship (a b : BoardPosition) : Ordering :=
  if a.rank > b.rank then Ordering.lt
  else if a.rank < b.rank then Ordering.gt
  else if a.file < b.file then Ordering.lt
  else if a.file > b.file then Ordering.gt
  else Ordering.eq

/-- The `<` induced by `operator<=>` (`(a <=> b) < 0`). -/
def BoardPosition.lt (a b : BoardPosition) : Bool :=
  decide (BoardPosition.spaceship a b = Ordering.lt)

/-- `BoardPosition::FromString`: exactly two characters,
`file = 1 + c0 - 'a'`, `rank = c1 - '0'`, then the `IsValid` check. -/
def BoardPosition.FromString (str : String) : Except String BoardPosition :=
  match str.toList with
  | [c0, c1] =>
    let ret : BoardPosition :=
      { file := 1 + (c0.toNat : Int) - ('a'.toNat : Int)
        rank := (c1.toNat : Int) - ('0'.toNat : Int) }
    if ret.IsValid then Except.ok ret
    else Except.error "Invalid position string"
  | _ => Except.error "Position must consist of exactly two chacaters."

/-- `ToString(BoardPosition)`: file letter then rank digit (`'0' + rank`). -/
def BoardPosition.ToString (position : BoardPosition) : String :=
  String.mk [FileToLetter position.file, Char.ofNat ('0'.toNat + position.rank).toNat]

/-- `FromFenPieceChar`: uppercase means White; the lower-cased letter
selects the piece type, anything unrecognised is an error. -/
def FromFenPieceChar (c : Char) : Except String Piece :=
  let color := if asciiIsUpper c then Color.White else Color.Black
  let c := asciiToLower c
  if c = 'r' then Except.ok { type := PieceType.Rook, color := color }
  else if c = 'n' then Except.ok { type := PieceType.Knight, color := color }
  else if c = 'b' then Except.ok { type := PieceType.Bishop, color := color }
  else if c = 'q' then Except.ok { type := PieceType.Queen, color := color }
  else if c = 'k' then Except.ok { type := PieceType.King, color := color }
  else if c = 'p' then Except.ok { type := PieceType.Pawn, color := color }
  else Except.error "Invalid FEN piece type"

/-- `ToString(PieceType, ChessLanguage)`.  The `kUnicode` strings are the
character sequences of the source file's literals, embedded verbatim. -/
def PieceType.ToString (type : PieceType) (language : ChessLanguage) : String :=
  match language, type with
  | ChessLanguage.kEnglish, PieceType.Rook => "R"
  | ChessLanguage.kEnglish, PieceType.Knight => "N"
  | ChessLanguage.kEnglish, PieceType.Bishop => "B"
  | ChessLanguage.kEnglish, PieceType.Queen => "Q"
  | ChessLanguage.kEnglish, PieceType.King => "K"
  | ChessLanguage.kEnglish, PieceType.Pawn => "P"
  | ChessLanguage.kUnicode, PieceType.Rook =>
    String.mk [Char.ofNat 0xf0, Char.ofNat 0x178, Char.ofNat 0xa8, Char.ofNat 0x201a, ' ']
  | ChessLanguage.kUnicode, PieceType.Knight =>
    String.mk [Char.ofNat 0xf0, Char.ofNat 0x178, Char.ofNat 0xa8, Char.ofNat 0x201e, ' ']
  | ChessLanguage.kUnicode, PieceType.Bishop =>
    String.mk [Char.ofNat 0xf0, Char.ofNat 0x178, Char.ofNat 0xa8, Char.ofNat 0x192, ' ']
  | ChessLanguage.kUnicode, PieceType.Queen =>
    String.mk [Char.ofNat 0xf0, Char.ofNat 0x178, Char.ofNat 0xa8, ' ']
  | ChessLanguage.kUnicode, PieceType.King =>
    String.mk [Char.ofNat 0xf0, Char.ofNat 0x178, Char.ofNat 0xa8, Char.ofNat 0x20ac, ' ']
  | ChessLanguage.kUnicode, PieceType.Pawn =>
    String.mk [Char.ofNat 0xf0, Char.ofNat 0x178, Char.ofNat 0xa8, Char.ofNat 0x2026, ' ']
  | ChessLanguage.kSpanish, PieceType.Rook => "T"
  | ChessLanguage.kSpanish, PieceType.Knight => "C"
  | ChessLanguage.kSpanish, PieceType.Bishop => "A"
  | ChessLanguage.kSpanish, PieceType.Queen => "D"
  | ChessLanguage.kSpanish, PieceType.King => "R"
  | ChessLanguage.kSpanish, PieceType.Pawn => "P"
  | ChessLanguage.kEnglishFull, PieceType.Rook => "rook"
  | ChessLanguage.kEnglishFull, PieceType.Knight => "knight"
  | ChessLanguage.kEnglishFull, PieceType.Bishop => "bishop"
  | ChessLanguage.kEnglishFull, PieceType.Queen => "queen"
  | ChessLanguage.kEnglishFull, PieceType.King => "king"
  | ChessLanguage.kEnglishFull, PieceType.Pawn => "pawn"

/-- `ToString(BoardPiece, ChessLanguage)`: piece text ++ position text,
the whole string lower-cased (`absl::AsciiStrToLower`) when Black. -/
def BoardPiece.ToString (piece : BoardPiece) (language : ChessLanguage) : String :=
  let ret := (piece.piece.type.ToString language) ++ piece.position.ToString
  if piece.piece.color = Color.Black then
    String.mk (ret.toList.map asciiToLower)
  else
    ret

/-- `BoardPiece::FromString`: exactly three characters; first through
`FromFenPieceChar`, the remaining two through `BoardPosition::FromString`. -/
def BoardPiece.FromString (str : String) : Except String BoardPiece :=
  match str.toList with
  | [c0, c1, c2] =>
    match FromFenPieceChar c0 with
    | Except.error e => Except.error e
    | Except.ok piece =>
      match BoardPosition.FromString (String.mk [c1, c2]) with
      | Except.error e => Except.error e
      | Except.ok position => Except.ok { position := position, piece := piece }
  | _ => Except.error "BoardPiece string must consist of three characters"

/-- The inner character loop of `ChessBoard::FromFen` over one rank-group:
a digit advances the file counter, a letter emits a piece and advances by 1. -/
def parseRank (chars : List Char) (rank : Int) (file : Int)
    (acc : List BoardPiece) : Except String (List BoardPiece) :=
  match chars with
  | [] => Except.ok acc
  | c :: rest =>
    if asciiIsDigit c then
      parseRank rest rank (file + ((c.toNat : Int) - ('0'.toNat : Int))) acc
    else
      match FromFenPieceChar c with
      | Except.error e => Except.error e
      | Except.ok piece =>
        parseRank rest rank (file + 1)
          (acc ++ [{ position := { file := file, rank := rank }, piece := piece }])

/-- The rank-group loop of `ChessBoard::FromFen`: the textual length check
(`> 8` fails), then the character loop; the rank counter decrements. -/
def parseRanks (ranks : List (List Char)) (rank : Int)
    (acc : List BoardPiece) : Except String (List BoardPiece) :=
  match ranks with
  | [] => Except.ok acc
  | rank_str :: rest =>
    if rank_str.length > 8 then
      Except.error "FEN rank must have at most 8 files"
    else
      match parseRank rank_str rank 1 acc with
      | Except.error e => Except.error e
      | Except.ok acc1 => parseRanks rest (rank - 1) acc1

/-- The `white_to_move_` assignment of `ChessBoard::FromFen`: when a
second space-separated field exists, compare it with `"w"`; otherwise the
member default `true` stands. -/
def fenWhiteToMove (rest : List (List Char)) : Bool :=
  match rest with
  | second :: _ => second == "w".toList
  | [] => true

/-- `ChessBoard::FromFen`. -/
def ChessBoard.FromFen (fen : String) : Except String ChessBoard :=
  match splitOnChar ' ' fen.toList with
  | [] => Except.error "FEN Must contain at least piece placement data"
  | ppd :: rest =>
    let white_to_move : Bool := fenWhiteToMove rest
    let ranks := splitOnChar '/' ppd
    if ranks.length ≠ 8 then
      Except.error "There must be 8 ranks in the FEN"
    else
      match parseRanks ranks 8 [] with
      | Except.error e => Except.error e
      | Except.ok pieces =>
        Except.ok { pieces_ := pieces, info_ := "", white_to_move_ := white_to_move }

/-- The 8x8 `full_board` of `ChessBoard::Fen`, as a total function from
(row, column) indices; unwritten cells are `none`. -/
def Grid : Type := Nat → Nat → Option Piece

/-- The freshly resized, all-empty `full_board`. -/
def emptyGrid : Grid := fun _ _ => none

/-- The placement loop of `ChessBoard::Fen`:
`full_board[8 - rank][file - 1] = piece`.  An index outside the 8x8 grid is
undefined behaviour in the C++ vector; modelled as failure (`none`). -/
def placePieces : List BoardPiece → Grid → Option Grid
  | [], g => some g
  | board_piece :: rest, g =>
    let r : Int := 8 - board_piece.position.rank
    let f : Int := board_piece.position.file - 1
    if 0 ≤ r ∧ r < 8 ∧ 0 ≤ f ∧ f < 8 then
      placePieces rest
        (fun i j => if i = r.toNat ∧ j = f.toNat then some board_piece.piece else g i j)
    else
      none

/-- The per-cell piece string of `ChessBoard::Fen`:
`ToString(type, kEnglish)` upper-cased for White, lower-cased for Black. -/
def fenPieceChars (p : Piece) : List Char :=
  let s := (p.type.ToString ChessLanguage.kEnglish).toList
  if p.color = Color.White then s.map asciiToUpper else s.map asciiToLower

/-- The run-length-encoding loop of `ChessBoard::Fen` over one grid row:
`prev_file`/`curr_file` counters, gap flushed before each piece and at the
end (`absl::StrAppend(&rank_str, curr_file - prev_file)`). -/
def rleRow : List (Option Piece) → Int → Int → List Char → List Char
  | [], prev_file, curr_file, acc =>
    if prev_file < curr_file then acc ++ (toString (curr_file - prev_file)).toList else acc
  | none :: rest, prev_file, curr_file, acc =>
    rleRow rest prev_file (curr_file + 1) acc
  | some p :: rest, prev_file, curr_file, acc =>
    let acc1 :=
      if prev_file < curr_file then acc ++ (toString (curr_file - prev_file)).toList else acc
    rleRow rest (curr_file + 1) (curr_file + 1) (acc1 ++ fenPieceChars p)

/-- One `rank_str` of `ChessBoard::Fen`, including the `was_empty` override
to `"8"` for a fully empty row. -/
def rowString (cells : List (Option Piece)) : List Char :=
  let s := rleRow cells 1 1 []
  if cells.all (fun c => c.isNone) then ['8'] else s

/-- `ChessBoard::Fen`: place all pieces on the grid (`none` on an
out-of-grid position), emit the 8 row strings top row first, join with
`/`, and append `" {w|b} - - 0 1"`. -/
def ChessBoard.Fen (b : ChessBoard) : Option String :=
  match placePieces b.pieces_ emptyGrid with
  | none => none
  | some g =>
    let rank_strings :=
      (List.range 8).map (fun i => rowString ((List.range 8).map (fun j => g i j)))
    some (String.mk
      (intercalateChar '/' rank_strings ++
        ' ' :: (if b.white_to_move_ then 'w' else 'b') ::
        [' ', '-', ' ', '-', ' ', '0', ' ', '1']))

/-- The loop body of `ChessBoard::Rotate` on one piece:
`rank = 9 - rank; file = 9 - file; color = color == Black ? White : Black`. -/
def rotatePiece (piece : BoardPiece) : BoardPiece :=
  { position := { file := 9 - piece.position.file, rank := 9 - piece.position.rank }
    piece :=
      { type := piece.piece.type
        color := if piece.piece.color = Color.Black then Color.White else Color.Black } }

/-- `ChessBoard::Rotate`: flip `white_to_move_`; apply `rotatePiece` to
every stored piece in place. -/
def ChessBoard.Rotate (b : ChessBoard) : ChessBoard :=
  { pieces_ := b.pieces_.map rotatePiece
    info_ := b.info_
    white_to_move_ := !b.white_to_move_ }

/-- `ChessBoard::AtPosition`: first piece in storage order at the position. -/
def ChessBoard.AtPosition (b : ChessBoard) (position : BoardPosition) : Option Piece :=
  match b.pieces_.find? (fun board_piece => board_piece.position = position) with
  | some board_piece => some board_piece.piece
  | none => none

/-- Canonical shape of the pieces parsed from one rank-group: every piece
sits on rank `k` and files strictly increase, the first being at least `f`. -/
def RowCanon (k : Int) : Int → List BoardPiece → Prop
  | _, [] => True
  | f, bp :: rest =>
    bp.position.rank = k ∧ f ≤ bp.position.file ∧
      RowCanon k (bp.position.file + 1) rest

/-- Canonical shape of a parsed board: one canonical row per rank
`k, k - 1, ...` from the top. -/
def RanksCanon : Int → List (List BoardPiece) → Prop
  | _, [] => True
  | k, row :: rest => RowCanon k 1 row ∧ RanksCanon (k - 1) rest

/-- The first piece in `row` whose file is `f`, if any. -/
def cellAt : List BoardPiece → Int → Option Piece
  | [], _ => none
  | bp :: rest, f => if bp.position.file = f then some bp.piece else cellAt rest f

/-- Overwrite grid row `i0` with the cells of `row` (other cells kept). -/
def rowUpd (g : Grid) (i0 : Nat) (row : List BoardPiece) : Grid :=
  fun i j =>
    if i = i0 then
      match cellAt row ((j : Int) + 1) with
      | some p => some p
      | none => g i j
    else g i j

/-- The grid obtained by placing the rows for ranks `k, k - 1, ...`. -/
def gridOfRows (g : Grid) (k : Int) : List (List BoardPiece) → Grid
  | [] => g
  | row :: rest => gridOfRows (rowUpd g (8 - k).toNat row) (k - 1) rest

/-- The pieces read off a list of cells at rank `k`, files from `f`. -/
def rowPieces (k : Int) : Int → List (Option Piece) → List BoardPiece
  | _, [] => []
  | f, none :: rest => rowPieces k (f + 1) rest
  | f, some p :: rest =>
    { position := { file := f, rank := k }, piece := p } :: rowPieces k (f + 1) rest

/-- The 8 cells of a canonical row, files 1 through 8. -/
def cellsAtRow (row : List BoardPiece) : List (Option Piece) :=
  (List.range 8).map (fun (j : Nat) => cellAt row ((j : Int) + 1))

end chess

/-! ## Rotation (claims C3, C4) -/

/-- The per-piece transformation of `ChessBoard::Rotate` is an involution. -/
theorem rotatePiece_rotatePiece (bp : chess.BoardPiece) :
    chess.rotatePiece (chess.rotatePiece bp) = bp := by
  obtain ⟨⟨f, r⟩, ⟨t, c⟩⟩ := bp
  cases c <;> simp [chess.rotatePiece]

/-- C3: `ChessBoard::Rotate` flips `white_to_move_` and maps each piece,
in place, to the piece at `(9 - file, 9 - rank)` with flipped color and
unchanged type; no piece is added or removed, and both effects happen in
the same single call. -/
theorem Rotate_flips_turn_and_transforms_each_piece (b : chess.ChessBoard) :
    (b.Rotate).white_to_move_ = !b.white_to_move_ ∧
    (b.Rotate).pieces_.length = b.pieces_.length ∧
    ∀ i (h : i < b.pieces_.length) (h2 : i < (b.Rotate).pieces_.length),
      ((b.Rotate).pieces_.get ⟨i, h2⟩).position.rank
          = 9 - (b.pieces_.get ⟨i, h⟩).position.rank ∧
      ((b.Rotate).pieces_.get ⟨i, h2⟩).position.file
          = 9 - (b.pieces_.get ⟨i, h⟩).position.file ∧
      ((b.Rotate).pieces_.get ⟨i, h2⟩).piece.type
          = (b.pieces_.get ⟨i, h⟩).piece.type ∧
      ((b.Rotate).pieces_.get ⟨i, h2⟩).piece.color
          = (if (b.pieces_.get ⟨i, h⟩).piece.color = chess.Color.White
             then chess.Color.Black else chess.Color.White) := by
  refine ⟨rfl, by simp [chess.ChessBoard.Rotate], ?_⟩
  intro i h h2
  have hmap : (b.Rotate).pieces_.get ⟨i, h2⟩ = chess.rotatePiece (b.pieces_.get ⟨i, h⟩) := by
    simp [chess.ChessBoard.Rotate, List.get_eq_getElem]
  rw [hmap]
  refine ⟨rfl, rfl, rfl, ?_⟩
  cases hc : (b.pieces_.get ⟨i, h⟩).piece.color <;>
    simp only [List.get_eq_getElem] at hc <;> simp [chess.rotatePiece, hc]

/-- Witness for C3 on a concrete one-piece board. -/
theorem Rotate_flips_turn_and_transforms_each_piece_witness :
    ((chess.ChessBoard.mk
        [⟨⟨5, 1⟩, ⟨chess.PieceType.King, chess.Color.White⟩⟩] "" true).Rotate).pieces_.get
        ⟨0, by decide⟩ = ⟨⟨4, 8⟩, ⟨chess.PieceType.King, chess.Color.Black⟩⟩ := by
  have h := (Rotate_flips_turn_and_transforms_each_piece
      (chess.ChessBoard.mk
        [⟨⟨5, 1⟩, ⟨chess.PieceType.King, chess.Color.White⟩⟩] "" true)).2.2
      0 (by decide) (by decide)
  revert h
  decide

/-- C4: rotating twice restores the piece list exactly (hence also as a
set, with every piece's original color) and restores `white_to_move_`. -/
theorem Rotate_Rotate_restores_board (b : chess.ChessBoard) :
    (b.Rotate.Rotate).pieces_ = b.pieces_ ∧
    (b.Rotate.Rotate).white_to_move_ = b.white_to_move_ := by
  constructor
  · show (b.pieces_.map chess.rotatePiece).map chess.rotatePiece = b.pieces_
    induction b.pieces_ with
    | nil => rfl
    | cons hd tl ih => simp only [List.map_cons, ih, rotatePiece_rotatePiece]
  · simp [chess.ChessBoard.Rotate]

/-! ## Position ordering (claim C8) -/

/-- C8: the `operator<=>`-induced `<` on `BoardPosition` holds iff the
first position has the greater rank, or equal ranks and the smaller file:
descending rank first, then ascending file. -/
theorem BoardPosition_lt_iff (a b : chess.BoardPosition) :
    chess.BoardPosition.lt a b = true ↔
      (a.rank > b.rank ∨ (a.rank = b.rank ∧ a.file < b.file)) := by
  simp only [chess.BoardPosition.lt, chess.BoardPosition.spaceship, decide_eq_true_eq]
  split_ifs with h1 h2 h3 h4 <;> simp <;> omega

/-! ## Square color (claim C10) -/

/-- C10: `BoardPosition::Color` is White exactly on even `file + rank`
(a1 is White, h1 is Black) and alternates between adjacent squares in
both the file and the rank direction. -/
theorem square_color_law :
    (chess.BoardPosition.mk 1 1).Color = chess.Color.White ∧
    (chess.BoardPosition.mk 8 1).Color = chess.Color.Black ∧
    (∀ p : chess.BoardPosition, p.IsValid = true →
      (p.Color = chess.Color.White ↔ (p.file + p.rank) % 2 = 0)) ∧
    (∀ p : chess.BoardPosition, p.IsValid = true →
      (chess.BoardPosition.mk (p.file + 1) p.rank).Color ≠ p.Color ∧
      (chess.BoardPosition.mk p.file (p.rank + 1)).Color ≠ p.Color) := by
  refine ⟨by decide, by decide, ?_, ?_⟩ <;>
    · intro ⟨f, r⟩ hv
      simp only [chess.BoardPosition.IsValid, Bool.and_eq_true, decide_eq_true_eq] at hv
      obtain ⟨⟨⟨hf1, hf8⟩, hr1⟩, hr8⟩ := hv
      interval_cases f <;> interval_cases r <;> decide

/-- Witness for C10 at the concrete valid square e4 = (5, 4). -/
theorem square_color_law_witness :
    ((chess.BoardPosition.mk 5 4).Color = chess.Color.White ↔
      ((5 : Int) + 4) % 2 = 0) ∧
    (chess.BoardPosition.mk 6 4).Color ≠ (chess.BoardPosition.mk 5 4).Color :=
  ⟨square_color_law.2.2.1 ⟨5, 4⟩ (by decide),
   (square_color_law.2.2.2 ⟨5, 4⟩ (by decide)).1⟩

/-! ## Position text round trip (claim C6) -/

/-- C6: for every position with file and rank in `[1, 8]`,
`BoardPosition::FromString` applied to `ToString(position)` succeeds and
returns the position unchanged. -/
theorem BoardPosition_text_roundtrip (p : chess.BoardPosition)
    (h : p.IsValid = true) :
    chess.BoardPosition.FromString p.ToString = Except.ok p := by
  obtain ⟨f, r⟩ := p
  simp only [chess.BoardPosition.IsValid, Bool.and_eq_true, decide_eq_true_eq] at h
  obtain ⟨⟨⟨hf1, hf8⟩, hr1⟩, hr8⟩ := h
  interval_cases f <;> interval_cases r <;> rfl

/-- Witness for C6 at e4 = (5, 4). -/
theorem BoardPosition_text_roundtrip_witness :
    (chess.BoardPosition.mk 5 4).IsValid = true ∧
    chess.BoardPosition.FromString (chess.BoardPosition.mk 5 4).ToString
      = Except.ok (chess.BoardPosition.mk 5 4) :=
  ⟨by decide, BoardPosition_text_roundtrip ⟨5, 4⟩ (by decide)⟩

/-! ## Placed-piece token round trip (claim C7) -/

/-- C7: `"Ne4"` and `"ne4"` round-trip through `BoardPiece::FromString`
followed by `ToString` in English abbreviation form; in general a Black
piece lower-cases the whole piece-plus-position string in every language,
while a White piece keeps the language's own casing. -/
theorem BoardPiece_token_roundtrip :
    ((chess.BoardPiece.FromString "Ne4").map
        (fun bp => bp.ToString chess.ChessLanguage.kEnglish) = Except.ok "Ne4") ∧
    ((chess.BoardPiece.FromString "ne4").map
        (fun bp => bp.ToString chess.ChessLanguage.kEnglish) = Except.ok "ne4") ∧
    (∀ (bp : chess.BoardPiece) (language : chess.ChessLanguage),
      bp.piece.color = chess.Color.Black →
      bp.ToString language =
        String.mk (((bp.piece.type.ToString language) ++
          bp.position.ToString).toList.map chess.asciiToLower)) ∧
    (∀ (bp : chess.BoardPiece) (language : chess.ChessLanguage),
      bp.piece.color = chess.Color.White →
      bp.ToString language = (bp.piece.type.ToString language) ++ bp.position.ToString) := by
  refine ⟨by rfl, by rfl, ?_, ?_⟩ <;>
    · intro bp language hc
      simp [chess.BoardPiece.ToString, hc]

/-- Witness for C7's general clauses on a concrete black rook and a
concrete white rook at a1, in English letters. -/
theorem BoardPiece_token_roundtrip_witness :
    (chess.BoardPiece.mk ⟨1, 1⟩ ⟨chess.PieceType.Rook, chess.Color.Black⟩).ToString
        chess.ChessLanguage.kEnglish =
      String.mk ((("R" : String) ++
        (chess.BoardPosition.mk 1 1).ToString).toList.map chess.asciiToLower) ∧
    (chess.BoardPiece.mk ⟨1, 1⟩ ⟨chess.PieceType.Rook, chess.Color.White⟩).ToString
        chess.ChessLanguage.kEnglish =
      ("R" : String) ++ (chess.BoardPosition.mk 1 1).ToString :=
  ⟨BoardPiece_token_roundtrip.2.2.1
      ⟨⟨1, 1⟩, ⟨chess.PieceType.Rook, chess.Color.Black⟩⟩
      chess.ChessLanguage.kEnglish rfl,
   BoardPiece_token_roundtrip.2.2.2
      ⟨⟨1, 1⟩, ⟨chess.PieceType.Rook, chess.Color.White⟩⟩
      chess.ChessLanguage.kEnglish rfl⟩

/-! ## FEN parse shape lemmas (used by claims C9, C5, C2, C1) -/

/-- `absl::StrSplit` never produces an empty list of pieces. -/
theorem splitOnChar_ne_nil (sep : Char) (l : List Char) : chess.splitOnChar sep l ≠ [] := by
  cases l with
  | nil => simp [chess.splitOnChar]
  | cons c rest =>
    simp only [chess.splitOnChar]
    split_ifs
    · simp
    · cases h : chess.splitOnChar sep rest <;> simp

/-- Unfolding of `ChessBoard::FromFen` once the space-split is known. -/
theorem FromFen_eq_of_split (s : String) (ppd : List Char) (rest : List (List Char))
    (h : chess.splitOnChar ' ' s.toList = ppd :: rest) :
    chess.ChessBoard.FromFen s =
      (if (chess.splitOnChar '/' ppd).length ≠ 8 then
        Except.error "There must be 8 ranks in the FEN"
       else
        match chess.parseRanks (chess.splitOnChar '/' ppd) 8 [] with
        | Except.error e => Except.error e
        | Except.ok pieces =>
          Except.ok
            { pieces_ := pieces, info_ := ""
              white_to_move_ := chess.fenWhiteToMove rest }) := by
  simp only [chess.ChessBoard.FromFen, h]

/-- Inversion of a successful `ChessBoard::FromFen`. -/
theorem FromFen_ok_inv (s : String) (b : chess.ChessBoard)
    (h : chess.ChessBoard.FromFen s = Except.ok b) :
    ∃ ppd rest, chess.splitOnChar ' ' s.toList = ppd :: rest ∧
      (chess.splitOnChar '/' ppd).length = 8 ∧
      chess.parseRanks (chess.splitOnChar '/' ppd) 8 [] = Except.ok b.pieces_ ∧
      b.info_ = "" ∧
      b.white_to_move_ = chess.fenWhiteToMove rest := by
  cases hs : chess.splitOnChar ' ' s.toList with
  | nil => exact absurd hs (splitOnChar_ne_nil ' ' s.toList)
  | cons ppd rest =>
    rw [FromFen_eq_of_split s ppd rest hs] at h
    refine ⟨ppd, rest, rfl, ?_⟩
    by_cases hlen : (chess.splitOnChar '/' ppd).length = 8
    · simp only [hlen, ne_eq, not_true_eq_false, if_false] at h
      cases hp : chess.parseRanks (chess.splitOnChar '/' ppd) 8 [] with
      | error e => rw [hp] at h; exact absurd h (by simp)
      | ok pieces =>
        rw [hp] at h
        simp only [Except.ok.injEq] at h
        subst h
        exact ⟨hlen, by simp [hp], rfl, rfl⟩
    · rw [if_pos hlen] at h
      exact absurd h (by simp)

/-- C9: on any successfully parsed FEN, `white_to_move_` is true iff the
second space-separated field is exactly `"w"`; with only a placement
field it defaults to true. -/
theorem FromFen_white_to_move (s : String) (b : chess.ChessBoard)
    (h : chess.ChessBoard.FromFen s = Except.ok b) :
    b.white_to_move_ =
      (match chess.splitOnChar ' ' s.toList with
       | _ :: second :: _ => second == "w".toList
       | _ => true) := by
  obtain ⟨ppd, rest, hs, -, -, -, hw⟩ := FromFen_ok_inv s b h
  rw [hs, hw]
  cases rest <;> rfl

/-- Witness for C9: a FEN whose second field is `"b"` parses with
`white_to_move_ = false`, and the match on the split evaluates to
comparing that field with `"w"`. -/
theorem FromFen_white_to_move_witness :
    (chess.ChessBoard.mk [] "" false).white_to_move_ =
      (match chess.splitOnChar ' ' ("8/8/8/8/8/8/8/8 b - - 0 1" : String).toList with
       | _ :: second :: _ => second == "w".toList
       | _ => true) :=
  FromFen_white_to_move "8/8/8/8/8/8/8/8 b - - 0 1" (chess.ChessBoard.mk [] "" false) rfl

/-! ## FEN parse failure/success conditions (claim C5) -/

/-- The rank character loop never fails when every character is a digit
or a recognised piece letter. -/
theorem parseRank_ok_of_valid (chars : List Char) (k f : Int)
    (acc : List chess.BoardPiece)
    (h : ∀ c ∈ chars, chess.asciiIsDigit c = true ∨
      (chess.FromFenPieceChar c).isOk = true) :
    (chess.parseRank chars k f acc).isOk = true := by
  induction chars generalizing f acc with
  | nil => rfl
  | cons c rest ih =>
    have hc := h c (List.mem_cons_self c rest)
    have hrest : ∀ c ∈ rest, chess.asciiIsDigit c = true ∨
        (chess.FromFenPieceChar c).isOk = true :=
      fun c hm => h c (List.mem_cons_of_mem _ hm)
    by_cases hd : chess.asciiIsDigit c = true
    · rw [chess.parseRank, if_pos hd]
      exact ih _ _ hrest
    · rw [chess.parseRank, if_neg hd]
      rcases hc with hc | hc
      · exact absurd hc hd
      · cases hp : chess.FromFenPieceChar c with
        | error e => rw [hp] at hc; exact absurd hc (by simp [Except.isOk, Except.toBool])
        | ok piece => exact ih _ _ hrest

/-- The rank-group loop never fails when every group passes the length
check and contains only digits and recognised piece letters. -/
theorem parseRanks_ok_of_valid (gs : List (List Char)) (k : Int)
    (acc : List chess.BoardPiece)
    (h : ∀ g ∈ gs, g.length ≤ 8 ∧ ∀ c ∈ g, chess.asciiIsDigit c = true ∨
      (chess.FromFenPieceChar c).isOk = true) :
    (chess.parseRanks gs k acc).isOk = true := by
  induction gs generalizing k acc with
  | nil => rfl
  | cons g rest ih =>
    obtain ⟨hlen, hchars⟩ := h g (List.mem_cons_self g rest)
    rw [chess.parseRanks, if_neg (by omega)]
    have hok := parseRank_ok_of_valid g k 1 acc hchars
    cases hp : chess.parseRank g k 1 acc with
    | error e => rw [hp] at hok; exact absurd hok (by simp [Except.isOk, Except.toBool])
    | ok acc1 => exact ih _ _ (fun g hm => h g (List.mem_cons_of_mem _ hm))

/-- The rank-group loop fails whenever some group is longer than 8
characters (an earlier group may fail first, but the whole parse still
fails). -/
theorem parseRanks_fails_of_long_group (gs : List (List Char)) (k : Int)
    (acc : List chess.BoardPiece) (g : List Char)
    (hm : g ∈ gs) (hlong : 8 < g.length) :
    (chess.parseRanks gs k acc).isOk = false := by
  induction gs generalizing k acc with
  | nil => cases hm
  | cons g0 rest ih =>
    rw [chess.parseRanks]
    by_cases h0 : g0.length > 8
    · rw [if_pos h0]; rfl
    · rw [if_neg h0]
      have hm' : g ∈ rest := by
        rcases List.mem_cons.mp hm with h | h
        · subst h; omega
        · exact h
      cases hp : chess.parseRank g0 k 1 acc with
      | error e => rfl
      | ok acc1 => exact ih _ _ hm'

/-- C5: `ChessBoard::FromFen` fails when the placement field does not
split into exactly 8 rank-groups (in particular on `""` and on a 7-rank
FEN), fails when some rank-group has more than 8 characters, and succeeds
when every rank-group is at most 8 characters of digits and recognised
piece letters — in particular `"9/8/8/8/8/8/8/8 w - - 0 1"` is accepted,
its lone `'9'` digit never being range-checked. -/
theorem FromFen_rank_group_checks :
    (∀ (s : String) (ppd : List Char) (rest : List (List Char)),
      chess.splitOnChar ' ' s.toList = ppd :: rest →
      (chess.splitOnChar '/' ppd).length ≠ 8 →
      chess.ChessBoard.FromFen s = Except.error "There must be 8 ranks in the FEN") ∧
    (∀ (s : String) (ppd : List Char) (rest : List (List Char)) (g : List Char),
      chess.splitOnChar ' ' s.toList = ppd :: rest →
      g ∈ chess.splitOnChar '/' ppd → 8 < g.length →
      (chess.ChessBoard.FromFen s).isOk = false) ∧
    (∀ (s : String) (ppd : List Char) (rest : List (List Char)),
      chess.splitOnChar ' ' s.toList = ppd :: rest →
      (chess.splitOnChar '/' ppd).length = 8 →
      (∀ g ∈ chess.splitOnChar '/' ppd, g.length ≤ 8 ∧
        ∀ c ∈ g, chess.asciiIsDigit c = true ∨
          (chess.FromFenPieceChar c).isOk = true) →
      (chess.ChessBoard.FromFen s).isOk = true) ∧
    chess.ChessBoard.FromFen "" = Except.error "There must be 8 ranks in the FEN" ∧
    chess.ChessBoard.FromFen "8/8/8/8/8/8/8 w - - 0 1"
      = Except.error "There must be 8 ranks in the FEN" ∧
    (chess.ChessBoard.FromFen "9/8/8/8/8/8/8/8 w - - 0 1").isOk = true := by
  refine ⟨?_, ?_, ?_, rfl, rfl, rfl⟩
  · intro s ppd rest hs hlen
    rw [FromFen_eq_of_split s ppd rest hs, if_pos hlen]
  · intro s ppd rest g hs hm hlong
    rw [FromFen_eq_of_split s ppd rest hs]
    by_cases hlen : (chess.splitOnChar '/' ppd).length = 8
    · rw [if_neg (by omega)]
      have hfail := parseRanks_fails_of_long_group (chess.splitOnChar '/' ppd) 8 [] g hm hlong
      cases hp : chess.parseRanks (chess.splitOnChar '/' ppd) 8 [] with
      | error e => rfl
      | ok pieces => rw [hp] at hfail; exact absurd hfail (by simp [Except.isOk, Except.toBool])
    · rw [if_pos hlen]; rfl
  · intro s ppd rest hs hlen hgroups
    rw [FromFen_eq_of_split s ppd rest hs, if_neg (by omega)]
    have hok := parseRanks_ok_of_valid (chess.splitOnChar '/' ppd) 8 [] hgroups
    cases hp : chess.parseRanks (chess.splitOnChar '/' ppd) 8 [] with
    | error e => rw [hp] at hok; exact absurd hok (by simp [Except.isOk, Except.toBool])
    | ok pieces => rfl

/-- Witness for C5: the success clause applied to the concrete FEN
`"p7/8/8/8/8/8/8/8"`. -/
theorem FromFen_rank_group_checks_witness :
    (chess.ChessBoard.FromFen "p7/8/8/8/8/8/8/8").isOk = true :=
  FromFen_rank_group_checks.2.2.1 "p7/8/8/8/8/8/8/8"
    ("p7/8/8/8/8/8/8/8" : String).toList [] (by decide) (by decide) (by decide)

/-! ## Shape of parsed piece lists (claims C2, C1) -/

/-- A canonical row keeps being canonical for a smaller file lower bound. -/
theorem RowCanon_mono (k f f2 : Int) (l : List chess.BoardPiece)
    (hle : f ≤ f2) (h : chess.RowCanon k f2 l) : chess.RowCanon k f l := by
  cases l with
  | nil => trivial
  | cons bp rest =>
    obtain ⟨h1, h2, h3⟩ := h
    exact ⟨h1, le_trans hle h2, h3⟩

/-- A successful rank-group parse appends a canonical row. -/
theorem parseRank_ok_shape (chars : List Char) (k f : Int)
    (acc out : List chess.BoardPiece)
    (h : chess.parseRank chars k f acc = Except.ok out) :
    ∃ l, out = acc ++ l ∧ chess.RowCanon k f l := by
  induction chars generalizing f acc with
  | nil =>
    simp only [chess.parseRank, Except.ok.injEq] at h
    subst h
    exact ⟨[], by simp, trivial⟩
  | cons c rest ih =>
    rw [chess.parseRank] at h
    by_cases hd : chess.asciiIsDigit c = true
    · rw [if_pos hd] at h
      obtain ⟨l, rfl, hcanon⟩ := ih _ _ h
      refine ⟨l, rfl, RowCanon_mono k f _ l ?_ hcanon⟩
      have h48 : 48 ≤ c.toNat := by
        simp only [chess.asciiIsDigit, Bool.and_eq_true, decide_eq_true_eq] at hd
        exact hd.1
      have h0 : '0'.toNat = 48 := rfl
      omega
    · rw [if_neg hd] at h
      cases hp : chess.FromFenPieceChar c with
      | error e => rw [hp] at h; exact absurd h (by simp)
      | ok piece =>
        rw [hp] at h
        obtain ⟨l, hout, hcanon⟩ := ih _ _ h
        refine ⟨{ position := { file := f, rank := k }, piece := piece } :: l, ?_, ?_⟩
        · rw [hout]; simp
        · exact ⟨rfl, le_refl f, hcanon⟩

/-- A successful placement parse appends the concatenation of canonical
rows, one per rank-group, ranks decreasing from `k`. -/
theorem parseRanks_ok_shape (gs : List (List Char)) (k : Int)
    (acc out : List chess.BoardPiece)
    (h : chess.parseRanks gs k acc = Except.ok out) :
    ∃ rows, out = acc ++ rows.flatten ∧ chess.RanksCanon k rows ∧
      rows.length = gs.length := by
  induction gs generalizing k acc with
  | nil =>
    simp only [chess.parseRanks, Except.ok.injEq] at h
    subst h
    exact ⟨[], by simp, trivial, rfl⟩
  | cons g grest ih =>
    rw [chess.parseRanks] at h
    by_cases hlen : g.length > 8
    · rw [if_pos hlen] at h; exact absurd h (by simp)
    · rw [if_neg hlen] at h
      cases hp : chess.parseRank g k 1 acc with
      | error e => rw [hp] at h; exact absurd h (by simp)
      | ok acc1 =>
        rw [hp] at h
        obtain ⟨l, rfl, hrow⟩ := parseRank_ok_shape g k 1 acc acc1 hp
        obtain ⟨rows, hout, hranks, hlens⟩ := ih _ _ h
        refine ⟨l :: rows, ?_, ⟨hrow, hranks⟩, by simp [hlens]⟩
        rw [hout]; simp

/-- Every member of a canonical row sits on rank `k` with file at least `f`. -/
theorem RowCanon_mem (k : Int) :
    ∀ (f : Int) (l : List chess.BoardPiece), chess.RowCanon k f l →
    ∀ bp ∈ l, bp.position.rank = k ∧ f ≤ bp.position.file := by
  intro f l
  induction l generalizing f with
  | nil => intro _ bp hm; cases hm
  | cons hd tl ih =>
    intro h bp hm
    obtain ⟨h1, h2, h3⟩ := h
    rcases List.mem_cons.mp hm with rfl | hm2
    · exact ⟨h1, h2⟩
    · obtain ⟨hr, hf⟩ := ih _ h3 bp hm2
      exact ⟨hr, by omega⟩

/-- Every piece in a canonical board has rank in `(k - #rows, k]` and a
file at least 1. -/
theorem RanksCanon_mem :
    ∀ (rows : List (List chess.BoardPiece)) (k : Int), chess.RanksCanon k rows →
    ∀ bp ∈ rows.flatten,
      k - rows.length < bp.position.rank ∧ bp.position.rank ≤ k ∧
        1 ≤ bp.position.file := by
  intro rows
  induction rows with
  | nil => intro k _ bp hm; simp at hm
  | cons row rest ih =>
    intro k h bp hm
    obtain ⟨hrow, hrest⟩ := h
    rw [List.flatten_cons] at hm
    simp only [List.length_cons]
    rcases List.mem_append.mp hm with hm1 | hm2
    · obtain ⟨hr, hf⟩ := RowCanon_mem k 1 row hrow bp hm1
      omega
    · obtain ⟨h1, h2, h3⟩ := ih (k - 1) hrest bp hm2
      omega

/-! ## Claim C2: positions of parsed pieces -/

/-- Counterexample to C2 as stated: the FEN placement `"9p/8/8/8/8/8/8/8"`
is accepted by `ChessBoard::FromFen`, yet its single parsed piece sits at
file 10, rank 8, which fails `BoardPosition::IsValid` (and which
`ChessBoard::Fen` would place outside the 8x8 grid). -/
theorem FromFen_produces_invalid_file_counterexample :
    chess.ChessBoard.FromFen "9p/8/8/8/8/8/8/8" =
      Except.ok
        { pieces_ := [{ position := { file := 10, rank := 8 }
                        piece := { type := chess.PieceType.Pawn, color := chess.Color.Black } }]
          info_ := ""
          white_to_move_ := true } ∧
    (chess.BoardPosition.mk 10 8).IsValid = false :=
  ⟨rfl, rfl⟩

/-- C2 (amended): every piece of a successfully parsed board has rank in
`[1, 8]` and file at least 1; the upper file bound — and with it
`IsValid` and the in-grid guarantee for `Fen()` — can fail, as the
counterexample shows. -/
theorem FromFen_pieces_rank_valid_file_positive (s : String) (b : chess.ChessBoard)
    (h : chess.ChessBoard.FromFen s = Except.ok b) :
    ∀ bp ∈ b.pieces_, 1 ≤ bp.position.rank ∧ bp.position.rank ≤ 8 ∧
      1 ≤ bp.position.file := by
  obtain ⟨ppd, rest, hs, hlen, hp, -, -⟩ := FromFen_ok_inv s b h
  obtain ⟨rows, hpieces, hcanon, hrows⟩ := parseRanks_ok_shape _ 8 [] _ hp
  intro bp hm
  rw [hpieces] at hm
  simp only [List.nil_append] at hm
  have hb := RanksCanon_mem rows 8 hcanon bp hm
  rw [hrows, hlen] at hb
  omega

/-- Witness for C2 (amended) on the two-kings FEN. -/
theorem FromFen_pieces_rank_valid_file_positive_witness :
    1 ≤ (chess.BoardPiece.mk ⟨5, 8⟩ ⟨chess.PieceType.King, chess.Color.Black⟩).position.rank ∧
    (chess.BoardPiece.mk ⟨5, 8⟩ ⟨chess.PieceType.King, chess.Color.Black⟩).position.rank ≤ 8 ∧
    1 ≤ (chess.BoardPiece.mk ⟨5, 8⟩ ⟨chess.PieceType.King, chess.Color.Black⟩).position.file :=
  FromFen_pieces_rank_valid_file_positive "4k3/8/8/8/8/8/8/4K3 w - - 0 1"
    { pieces_ := [⟨⟨5, 8⟩, ⟨chess.PieceType.King, chess.Color.Black⟩⟩,
                  ⟨⟨5, 1⟩, ⟨chess.PieceType.King, chess.Color.White⟩⟩]
      info_ := "", white_to_move_ := true }
    rfl
    (chess.BoardPiece.mk ⟨5, 8⟩ ⟨chess.PieceType.King, chess.Color.Black⟩)
    (by decide)

/-! ## Run-length encoding of one grid row (claim C1) -/

/-- `rleRow` only appends to its accumulator. -/
theorem rleRow_acc (cells : List (Option chess.Piece)) :
    ∀ (prev curr : Int) (acc : List Char),
    chess.rleRow cells prev curr acc = acc ++ chess.rleRow cells prev curr [] := by
  induction cells with
  | nil =>
    intro prev curr acc
    rw [chess.rleRow, chess.rleRow]
    split_ifs <;> simp
  | cons cell rest ih =>
    intro prev curr acc
    cases cell with
    | none => rw [chess.rleRow, chess.rleRow]; exact ih prev (curr + 1) acc
    | some p =>
      rw [chess.rleRow, chess.rleRow]
      rw [ih (curr + 1) (curr + 1)
        ((if prev < curr then acc ++ (toString (curr - prev)).toList else acc) ++
          chess.fenPieceChars p)]
      rw [ih (curr + 1) (curr + 1)
        ((if prev < curr then [] ++ (toString (curr - prev)).toList else []) ++
          chess.fenPieceChars p)]
      split_ifs <;> simp

/-- A gap of size 1..9 is formatted as the single matching digit
character, which parses back to the same value. -/
theorem gap_digit_char (gap : Int) (h1 : 1 ≤ gap) (h9 : gap ≤ 9) :
    ∃ c : Char, (toString gap).toList = [c] ∧ chess.asciiIsDigit c = true ∧
      (c.toNat : Int) - ('0'.toNat : Int) = gap := by
  interval_cases gap
  · exact ⟨'1', by decide, by decide, by decide⟩
  · exact ⟨'2', by decide, by decide, by decide⟩
  · exact ⟨'3', by decide, by decide, by decide⟩
  · exact ⟨'4', by decide, by decide, by decide⟩
  · exact ⟨'5', by decide, by decide, by decide⟩
  · exact ⟨'6', by decide, by decide, by decide⟩
  · exact ⟨'7', by decide, by decide, by decide⟩
  · exact ⟨'8', by decide, by decide, by decide⟩
  · exact ⟨'9', by decide, by decide, by decide⟩

/-- The FEN character emitted for a piece is a single non-digit,
non-separator character that `FromFenPieceChar` maps back to the piece. -/
theorem fenPieceChars_spec (p : chess.Piece) :
    ∃ c : Char, chess.fenPieceChars p = [c] ∧ chess.asciiIsDigit c = false ∧
      c ≠ '/' ∧ c ≠ ' ' ∧ chess.FromFenPieceChar c = Except.ok p := by
  obtain ⟨t, col⟩ := p
  cases t <;> cases col <;> exact ⟨_, rfl, rfl, by decide, by decide, rfl⟩

/-- Parsing the run-length encoding of a row recovers exactly the pieces
read off the cells, at the right files. -/
theorem rleRow_parse (cells : List (Option chess.Piece)) :
    ∀ (k prev curr : Int) (acc : List chess.BoardPiece),
    1 ≤ prev → prev ≤ curr → curr - prev + cells.length ≤ 9 →
    chess.parseRank (chess.rleRow cells prev curr []) k prev acc
      = Except.ok (acc ++ chess.rowPieces k curr cells) := by
  induction cells with
  | nil =>
    intro k prev curr acc h1 hpc hbound
    rw [chess.rleRow]
    by_cases hlt : prev < curr
    · rw [if_pos hlt]
      obtain ⟨c, hcs, hdig, hval⟩ := gap_digit_char (curr - prev)
        (by omega) (by simp at hbound; omega)
      rw [List.nil_append, hcs, chess.parseRank, if_pos hdig,
        show prev + ((c.toNat : Int) - ('0'.toNat : Int)) = curr from by omega,
        chess.parseRank]
      simp [chess.rowPieces]
    · rw [if_neg hlt, chess.parseRank]
      simp [chess.rowPieces]
  | cons cell rest ih =>
    intro k prev curr acc h1 hpc hbound
    simp only [List.length_cons] at hbound
    cases cell with
    | none =>
      rw [chess.rleRow,
        ih k prev (curr + 1) acc h1 (by omega) (by push_cast at hbound ⊢; omega),
        chess.rowPieces]
    | some p =>
      rw [chess.rleRow, rleRow_acc]
      obtain ⟨c, hcs, hdig, hne1, hne2, hparse⟩ := fenPieceChars_spec p
      by_cases hlt : prev < curr
      · obtain ⟨d, hds, hddig, hdval⟩ := gap_digit_char (curr - prev)
          (by omega) (by push_cast at hbound; omega)
        rw [if_pos hlt, hds, hcs]
        simp only [List.nil_append, List.cons_append, List.append_assoc]
        rw [chess.parseRank, if_pos hddig,
          show prev + ((d.toNat : Int) - ('0'.toNat : Int)) = curr from by omega]
        rw [chess.parseRank, if_neg (by simp [hdig])]
        simp only [hparse]
        rw [ih k (curr + 1) (curr + 1) _ (by omega) (by omega)
          (by push_cast at hbound ⊢; omega)]
        rw [chess.rowPieces]
        simp
      · have hcp : curr = prev := by omega
        subst hcp
        rw [if_neg hlt, hcs]
        simp only [List.nil_append, List.cons_append]
        rw [chess.parseRank, if_neg (by simp [hdig])]
        simp only [hparse]
        rw [ih k (curr + 1) (curr + 1) _ (by omega) (by omega)
          (by push_cast at hbound ⊢; omega)]
        rw [chess.rowPieces]
        simp

/-- Length bound for the run-length encoding: one character per cell,
plus one for a pending gap. -/
theorem rleRow_length (cells : List (Option chess.Piece)) :
    ∀ (prev curr : Int), 1 ≤ prev → prev ≤ curr →
    curr - prev + cells.length ≤ 9 →
    (chess.rleRow cells prev curr []).length ≤
      (if prev < curr then 1 else 0) + cells.length := by
  induction cells with
  | nil =>
    intro prev curr h1 hpc hbound
    rw [chess.rleRow]
    split_ifs with h
    · obtain ⟨c, hcs, -, -⟩ := gap_digit_char (curr - prev)
        (by omega) (by simp at hbound; omega)
      rw [List.nil_append, hcs]
      simp
    · simp
  | cons cell rest ih =>
    intro prev curr h1 hpc hbound
    simp only [List.length_cons] at hbound
    cases cell with
    | none =>
      rw [chess.rleRow]
      have hrec := ih prev (curr + 1) h1 (by omega) (by push_cast at hbound ⊢; omega)
      rw [if_pos (by omega)] at hrec
      split_ifs <;> simp only [List.length_cons] <;> omega
    | some p =>
      rw [chess.rleRow, rleRow_acc]
      obtain ⟨c, hcs, -, -, -, -⟩ := fenPieceChars_spec p
      have hrec := ih (curr + 1) (curr + 1) (by omega) (by omega)
        (by push_cast at hbound ⊢; omega)
      rw [if_neg (by omega)] at hrec
      by_cases hlt : prev < curr
      · obtain ⟨d, hds, -, -⟩ := gap_digit_char (curr - prev)
          (by omega) (by push_cast at hbound; omega)
        rw [if_pos hlt, hds, hcs]
        simp only [List.length_append, List.length_cons, List.length_nil,
          List.nil_append]
        rw [if_pos hlt]
        simp at hrec ⊢
        omega
      · rw [if_neg hlt, hcs]
        simp only [List.length_append, List.length_cons, List.length_nil,
          List.nil_append]
        rw [if_neg hlt]
        simp at hrec ⊢
        omega

/-- Every character of the run-length encoding is a digit or a piece
letter; in particular it is neither `'/'` nor `' '`. -/
theorem rleRow_chars (cells : List (Option chess.Piece)) :
    ∀ (prev curr : Int), 1 ≤ prev → prev ≤ curr →
    curr - prev + cells.length ≤ 9 →
    ∀ ch ∈ chess.rleRow cells prev curr [], ch ≠ '/' ∧ ch ≠ ' ' := by
  induction cells with
  | nil =>
    intro prev curr h1 hpc hbound ch hm
    rw [chess.rleRow] at hm
    split_ifs at hm with h
    · obtain ⟨c, hcs, hdig, -⟩ := gap_digit_char (curr - prev)
        (by omega) (by simp at hbound; omega)
      rw [List.nil_append, hcs] at hm
      simp only [List.mem_singleton] at hm
      subst hm
      constructor <;> intro heq <;> rw [heq] at hdig <;>
        exact absurd hdig (by decide)
    · simp at hm
  | cons cell rest ih =>
    intro prev curr h1 hpc hbound ch hm
    simp only [List.length_cons] at hbound
    cases cell with
    | none =>
      rw [chess.rleRow] at hm
      exact ih prev (curr + 1) h1 (by omega) (by push_cast at hbound ⊢; omega) ch hm
    | some p =>
      rw [chess.rleRow, rleRow_acc] at hm
      obtain ⟨c, hcs, hcdig, hne1, hne2, -⟩ := fenPieceChars_spec p
      have hrec := ih (curr + 1) (curr + 1) (by omega) (by omega)
        (by push_cast at hbound ⊢; omega)
      rw [hcs] at hm
      by_cases hlt : prev < curr
      · obtain ⟨d, hds, hddig, -⟩ := gap_digit_char (curr - prev)
          (by omega) (by push_cast at hbound; omega)
        rw [if_pos hlt, hds] at hm
        simp only [List.nil_append, List.cons_append, List.mem_cons,
          List.mem_append, List.mem_singleton] at hm
        rcases hm with rfl | hm
        · constructor <;> intro heq <;> rw [heq] at hddig <;>
            exact absurd hddig (by decide)
        rcases hm with rfl | hm
        · exact ⟨hne1, hne2⟩
        · exact hrec ch hm
      · rw [if_neg hlt] at hm
        simp only [List.nil_append, List.cons_append, List.mem_cons] at hm
        rcases hm with rfl | hm
        · exact ⟨hne1, hne2⟩
        · exact hrec ch hm

/-- Cells that are all empty read back as no pieces. -/
theorem rowPieces_all_none (k : Int) :
    ∀ (f : Int) (cells : List (Option chess.Piece)),
    cells.all (fun c => c.isNone) = true → chess.rowPieces k f cells = [] := by
  intro f cells
  induction cells generalizing f with
  | nil => intro _; rfl
  | cons cell rest ih =>
    intro h
    simp only [List.all_cons, Bool.and_eq_true] at h
    cases cell with
    | none => rw [chess.rowPieces]; exact ih _ h.2
    | some p => simp [Option.isNone] at h

/-- Parsing one serialized rank string recovers the pieces of its cells. -/
theorem rowString_parse (cells : List (Option chess.Piece)) (k : Int)
    (acc : List chess.BoardPiece) (hlen : cells.length = 8) :
    chess.parseRank (chess.rowString cells) k 1 acc
      = Except.ok (acc ++ chess.rowPieces k 1 cells) := by
  rw [chess.rowString]
  by_cases hall : cells.all (fun c => c.isNone) = true
  · rw [if_pos hall, rowPieces_all_none k 1 cells hall]
    rw [chess.parseRank, if_pos (by decide), chess.parseRank]
    simp
  · rw [if_neg hall]
    rw [rleRow_parse cells k 1 1 acc (by omega) (by omega) (by rw [hlen]; norm_num)]

/-- A serialized rank string has at most 8 characters. -/
theorem rowString_length (cells : List (Option chess.Piece))
    (hlen : cells.length = 8) :
    (chess.rowString cells).length ≤ 8 := by
  rw [chess.rowString]
  by_cases hall : cells.all (fun c => c.isNone) = true
  · rw [if_pos hall]; simp
  · rw [if_neg hall]
    have := rleRow_length cells 1 1 (by omega) (by omega) (by rw [hlen]; norm_num)
    rw [if_neg (by omega), hlen] at this
    omega

/-- A serialized rank string contains neither `'/'` nor `' '`. -/
theorem rowString_chars (cells : List (Option chess.Piece))
    (hlen : cells.length = 8) :
    ∀ ch ∈ chess.rowString cells, ch ≠ '/' ∧ ch ≠ ' ' := by
  rw [chess.rowString]
  by_cases hall : cells.all (fun c => c.isNone) = true
  · rw [if_pos hall]
    intro ch hm
    simp only [List.mem_singleton] at hm
    subst hm
    exact ⟨by decide, by decide⟩
  · rw [if_neg hall]
    exact rleRow_chars cells 1 1 (by omega) (by omega) (by rw [hlen]; norm_num)

/-! ## Placement onto the 8x8 grid (claim C1) -/

/-- Placement processes an appended list sequentially. -/
theorem placePieces_append (l1 l2 : List chess.BoardPiece) :
    ∀ g : chess.Grid,
    chess.placePieces (l1 ++ l2) g =
      (chess.placePieces l1 g).bind (chess.placePieces l2) := by
  induction l1 with
  | nil => intro g; rfl
  | cons bp rest ih =>
    intro g
    rw [List.cons_append, chess.placePieces, chess.placePieces]
    split_ifs
    · exact ih _
    · rfl

/-- Below the lower file bound of a canonical row there is no piece. -/
theorem cellAt_none_of_lt (k f : Int) :
    ∀ (f2 : Int) (row : List chess.BoardPiece),
    chess.RowCanon k f2 row → f < f2 → chess.cellAt row f = none := by
  intro f2 row
  induction row generalizing f2 with
  | nil => intro _ _; rfl
  | cons bp rest ih =>
    intro h hf
    obtain ⟨h1, h2, h3⟩ := h
    rw [chess.cellAt, if_neg (by omega)]
    exact ih _ h3 (by omega)

/-- Placing one canonical, valid row writes exactly its cells into grid
row `8 - k` and touches nothing else. -/
theorem placePieces_row (k : Int) :
    ∀ (row : List chess.BoardPiece) (f0 : Int) (g : chess.Grid),
    chess.RowCanon k f0 row → (∀ bp ∈ row, bp.position.IsValid = true) →
    1 ≤ k → k ≤ 8 →
    chess.placePieces row g = some (chess.rowUpd g (8 - k).toNat row) := by
  intro row
  induction row with
  | nil =>
    intro f0 g _ _ hk1 hk8
    rw [chess.placePieces]
    congr 1
    funext i j
    rw [chess.rowUpd]
    split_ifs <;> rfl
  | cons bp rest ih =>
    intro f0 g hcanon hvalid hk1 hk8
    obtain ⟨hrank, hge, hcanon2⟩ := hcanon
    have hv := hvalid bp (List.mem_cons_self bp rest)
    simp only [chess.BoardPosition.IsValid, Bool.and_eq_true, decide_eq_true_eq] at hv
    obtain ⟨⟨⟨hf1, hf8⟩, hr1⟩, hr8⟩ := hv
    rw [chess.placePieces]
    rw [if_pos (by refine ⟨?_, ?_, ?_, ?_⟩ <;> omega)]
    rw [ih (bp.position.file + 1) _ hcanon2
      (fun x hx => hvalid x (List.mem_cons_of_mem _ hx)) hk1 hk8]
    congr 1
    funext i j
    rw [chess.rowUpd, chess.rowUpd]
    by_cases hi : i = (8 - k).toNat
    · rw [if_pos hi, if_pos hi, chess.cellAt]
      by_cases hbf : bp.position.file = (j : Int) + 1
      · rw [if_pos hbf,
          cellAt_none_of_lt k ((j : Int) + 1) _ rest hcanon2 (by omega)]
        show (if i = (8 - bp.position.rank).toNat ∧ j = (bp.position.file - 1).toNat
          then some bp.piece else g i j) = some bp.piece
        rw [if_pos ⟨by omega, by omega⟩]
      · rw [if_neg hbf]
        cases hc : chess.cellAt rest ((j : Int) + 1) with
        | some p => rfl
        | none =>
          show (if i = (8 - bp.position.rank).toNat ∧ j = (bp.position.file - 1).toNat
            then some bp.piece else g i j) = g i j
          rw [if_neg (by intro hand; exact hbf (by omega))]
    · rw [if_neg hi, if_neg hi]
      show (if i = (8 - bp.position.rank).toNat ∧ j = (bp.position.file - 1).toNat
        then some bp.piece else g i j) = g i j
      rw [if_neg (by intro hand; exact hi (by omega))]

/-- Rows placed for smaller ranks do not touch higher grid rows. -/
theorem gridOfRows_below (rows : List (List chess.BoardPiece)) :
    ∀ (g : chess.Grid) (k : Int) (i j : Nat), k ≤ 8 → i < (8 - k).toNat →
    chess.gridOfRows g k rows i j = g i j := by
  induction rows with
  | nil => intro g k i j _ _; rfl
  | cons row rest ih =>
    intro g k i j hk hi
    rw [chess.gridOfRows, ih _ (k - 1) i j (by omega) (by omega),
      chess.rowUpd, if_neg (by omega)]

/-- Reading grid row `(8 - k) + m` after placing rows for ranks
`k, k - 1, ...` sees exactly the cells of the `m`-th row. -/
theorem gridOfRows_at (rows : List (List chess.BoardPiece)) :
    ∀ (g : chess.Grid) (k : Int) (m j : Nat), k ≤ 8 → (rows.length : Int) ≤ k →
    m < rows.length →
    chess.gridOfRows g k rows ((8 - k).toNat + m) j =
      (match chess.cellAt (rows.getD m []) ((j : Int) + 1) with
       | some p => some p
       | none => g ((8 - k).toNat + m) j) := by
  induction rows with
  | nil => intro g k m j _ _ hm; simp at hm
  | cons row rest ih =>
    intro g k m j hk hlen hm
    simp only [List.length_cons] at hlen
    push_cast at hlen
    rw [chess.gridOfRows]
    cases m with
    | zero =>
      rw [gridOfRows_below rest _ (k - 1) _ j (by omega) (by omega)]
      rw [List.getD_cons_zero, Nat.add_zero, chess.rowUpd, if_pos rfl]
    | succ m2 =>
      have hidx : (8 - k).toNat + (m2 + 1) = (8 - (k - 1)).toNat + m2 := by omega
      rw [hidx, ih _ (k - 1) m2 j (by omega) (by omega)
        (by simp only [List.length_cons] at hm; omega)]
      rw [List.getD_cons_succ]
      cases hc : chess.cellAt (rest.getD m2 []) ((j : Int) + 1) with
      | some p => rfl
      | none =>
        show chess.rowUpd g (8 - k).toNat row ((8 - (k - 1)).toNat + m2) j = _
        rw [chess.rowUpd, if_neg (by omega)]

/-- The final grid of a full canonical board, read row by row. -/
theorem gridOfRows_top (rows : List (List chess.BoardPiece))
    (hlen : rows.length = 8) (m j : Nat) (hm : m < 8) :
    chess.gridOfRows chess.emptyGrid 8 rows m j =
      chess.cellAt (rows.getD m []) ((j : Int) + 1) := by
  have h := gridOfRows_at rows chess.emptyGrid 8 m j (by omega)
    (by rw [hlen]; norm_num) (by omega)
  rw [show ((8 : Int) - 8).toNat = 0 from rfl, Nat.zero_add] at h
  rw [h]
  cases hc : chess.cellAt (rows.getD m []) ((j : Int) + 1) <;> rfl

/-- Placing all rows of a canonical, valid board succeeds and yields
`gridOfRows`. -/
theorem placePieces_rows (rows : List (List chess.BoardPiece)) :
    ∀ (g : chess.Grid) (k : Int), chess.RanksCanon k rows →
    (∀ bp ∈ rows.flatten, bp.position.IsValid = true) →
    k ≤ 8 → (rows.length : Int) ≤ k →
    chess.placePieces rows.flatten g = some (chess.gridOfRows g k rows) := by
  induction rows with
  | nil => intro g k _ _ _ _; rfl
  | cons row rest ih =>
    intro g k hcanon hvalid hk hlen
    simp only [List.length_cons] at hlen
    push_cast at hlen
    obtain ⟨hrow, hrest⟩ := hcanon
    rw [List.flatten_cons, placePieces_append]
    rw [placePieces_row k row 1 g hrow
      (fun bp hm => hvalid bp (by rw [List.flatten_cons]; exact List.mem_append_left _ hm))
      (by omega) hk]
    show chess.placePieces rest.flatten (chess.rowUpd g (8 - k).toNat row)
      = some (chess.gridOfRows g k (row :: rest))
    rw [chess.gridOfRows]
    exact ih _ (k - 1) hrest
      (fun bp hm => hvalid bp (by rw [List.flatten_cons]; exact List.mem_append_right _ hm))
      (by omega) (by omega)

/-- Reading back the cells built from a canonical valid row returns the
row itself. -/
theorem rowPieces_cells_eq (k : Int) :
    ∀ (n : Nat) (f : Int) (row : List chess.BoardPiece),
    chess.RowCanon k f row →
    (∀ bp ∈ row, bp.position.file < f + n) →
    chess.rowPieces k f ((List.range n).map (fun (j : Nat) => chess.cellAt row (f + (j : Int)))) = row := by
  intro n
  induction n with
  | zero =>
    intro f row hcanon hbound
    cases row with
    | nil => rfl
    | cons bp rest =>
      exfalso
      have := hbound bp (List.mem_cons_self bp rest)
      obtain ⟨-, hge, -⟩ := hcanon
      omega
  | succ n ih =>
    intro f row hcanon hbound
    rw [List.range_succ_eq_map, List.map_cons, List.map_map]
    have hshift : ((fun (j : Nat) => chess.cellAt row (f + (j : Int))) ∘ Nat.succ)
        = fun (j : Nat) => chess.cellAt row ((f + 1) + (j : Int)) := by
      funext j
      show chess.cellAt row (f + ((j + 1 : Nat) : Int)) = chess.cellAt row ((f + 1) + (j : Int))
      congr 1
      push_cast
      ring
    rw [hshift]
    cases row with
    | nil =>
      rw [show chess.cellAt [] (f + ((0 : Nat) : Int)) = none from rfl, chess.rowPieces]
      exact ih (f + 1) [] trivial (by intro bp hm; cases hm)
    | cons bp rest =>
      obtain ⟨hrank, hge, hcanon2⟩ := hcanon
      by_cases hbf : bp.position.file = f
      · have hhead : chess.cellAt (bp :: rest) (f + ((0 : Nat) : Int)) = some bp.piece := by
          rw [chess.cellAt]
          rw [if_pos (by omega)]
        rw [hhead, chess.rowPieces]
        have htail : (fun (j : Nat) => chess.cellAt (bp :: rest) ((f + 1) + (j : Int)))
            = fun (j : Nat) => chess.cellAt rest ((f + 1) + (j : Int)) := by
          funext j
          rw [chess.cellAt, if_neg (by omega)]
        rw [htail]
        rw [ih (f + 1) rest (by rw [hbf] at hcanon2; exact hcanon2)
          (by intro x hx
              have := hbound x (List.mem_cons_of_mem _ hx)
              push_cast at this ⊢
              omega)]
        have hbpeq : { position := { file := f, rank := k }, piece := bp.piece } = bp := by
          obtain ⟨⟨bf, br⟩, bpc⟩ := bp
          simp only [chess.BoardPiece.mk.injEq, chess.BoardPosition.mk.injEq, and_true]
          exact ⟨hbf.symm, hrank.symm⟩
        rw [hbpeq]
      · have hhead : chess.cellAt (bp :: rest) (f + ((0 : Nat) : Int)) = none := by
          rw [chess.cellAt, if_neg (by omega)]
          exact cellAt_none_of_lt k (f + ((0 : Nat) : Int)) _ rest hcanon2 (by omega)
        rw [hhead, chess.rowPieces]
        exact ih (f + 1) (bp :: rest) ⟨hrank, by omega, hcanon2⟩
          (by intro x hx; have := hbound x hx; push_cast at this ⊢; omega)

/-- Indexing a list through `range`/`getD` is just mapping over it. -/
theorem range_map_getD {α β : Type} (d : α) (F : α → β) :
    ∀ (l : List α),
    (List.range l.length).map (fun i => F (l.getD i d)) = l.map F := by
  intro l
  induction l with
  | nil => rfl
  | cons a l ih =>
    rw [List.length_cons, List.range_succ_eq_map, List.map_cons, List.map_map,
      List.map_cons, List.getD_cons_zero]
    congr 1

/-! ## Splitting the serialized FEN back into fields (claim C1) -/

/-- Splitting a separator-free string yields that one piece. -/
theorem splitOnChar_no_sep (sep : Char) :
    ∀ l : List Char, sep ∉ l → chess.splitOnChar sep l = [l] := by
  intro l
  induction l with
  | nil => intro _; rfl
  | cons c rest ih =>
    intro h
    simp only [List.mem_cons, not_or] at h
    rw [chess.splitOnChar, if_neg (fun hc => h.1 hc.symm), ih h.2]

/-- Splitting at the first separator after a separator-free prefix. -/
theorem splitOnChar_append (sep : Char) :
    ∀ (l1 l2 : List Char), sep ∉ l1 →
    chess.splitOnChar sep (l1 ++ sep :: l2) = l1 :: chess.splitOnChar sep l2 := by
  intro l1
  induction l1 with
  | nil =>
    intro l2 _
    rw [List.nil_append, chess.splitOnChar, if_pos rfl]
  | cons c rest ih =>
    intro l2 h
    simp only [List.mem_cons, not_or] at h
    rw [List.cons_append, chess.splitOnChar, if_neg (fun hc => h.1 hc.symm),
      ih l2 h.2]

/-- Splitting undoes joining when no piece contains the separator. -/
theorem splitOnChar_intercalate (sep : Char) :
    ∀ gs : List (List Char), gs ≠ [] → (∀ g ∈ gs, sep ∉ g) →
    chess.splitOnChar sep (chess.intercalateChar sep gs) = gs := by
  intro gs
  induction gs with
  | nil => intro h _; exact absurd rfl h
  | cons g rest ih =>
    intro _ hns
    cases rest with
    | nil =>
      rw [chess.intercalateChar]
      exact splitOnChar_no_sep sep g (hns g (List.mem_cons_self g []))
    | cons g2 rest2 =>
      rw [show chess.intercalateChar sep (g :: g2 :: rest2)
            = g ++ sep :: chess.intercalateChar sep (g2 :: rest2) from rfl,
        splitOnChar_append sep g _ (hns g (List.mem_cons_self g _)),
        ih (by simp) (fun x hx => hns x (List.mem_cons_of_mem _ hx))]

/-- Every character of a join is the separator or comes from a piece. -/
theorem intercalateChar_chars (sep : Char) :
    ∀ (gs : List (List Char)) (c : Char),
    c ∈ chess.intercalateChar sep gs → c = sep ∨ ∃ g ∈ gs, c ∈ g := by
  intro gs
  induction gs with
  | nil => intro c hm; cases hm
  | cons g rest ih =>
    intro c hm
    cases rest with
    | nil =>
      rw [chess.intercalateChar] at hm
      exact Or.inr ⟨g, List.mem_cons_self g [], hm⟩
    | cons g2 rest2 =>
      rw [show chess.intercalateChar sep (g :: g2 :: rest2)
            = g ++ sep :: chess.intercalateChar sep (g2 :: rest2) from rfl] at hm
      rcases List.mem_append.mp hm with hm1 | hm2
      · exact Or.inr ⟨g, List.mem_cons_self g _, hm1⟩
      · rcases List.mem_cons.mp hm2 with rfl | hm3
        · exact Or.inl rfl
        · rcases ih c hm3 with heq | ⟨g3, hg3, hc3⟩
          · exact Or.inl heq
          · exact Or.inr ⟨g3, List.mem_cons_of_mem _ hg3, hc3⟩

/-! ## Serialization of a canonical board and parsing it back (claim C1) -/

/-- Parsing the serialized rank strings of a canonical valid board
recovers its piece list. -/
theorem parseRanks_of_rowStrings (rows : List (List chess.BoardPiece)) :
    ∀ (k : Int) (acc : List chess.BoardPiece),
    chess.RanksCanon k rows →
    (∀ bp ∈ rows.flatten, bp.position.IsValid = true) →
    chess.parseRanks (rows.map (fun row => chess.rowString (chess.cellsAtRow row))) k acc
      = Except.ok (acc ++ rows.flatten) := by
  induction rows with
  | nil =>
    intro k acc _ _
    rw [List.map_nil, chess.parseRanks]
    simp
  | cons row rest ih =>
    intro k acc hcanon hvalid
    obtain ⟨hrow, hrest⟩ := hcanon
    have hvrow : ∀ bp ∈ row, bp.position.IsValid = true :=
      fun bp hm => hvalid bp (by rw [List.flatten_cons]; exact List.mem_append_left _ hm)
    have hcellen : (chess.cellsAtRow row).length = 8 := by
      rw [chess.cellsAtRow]; simp
    rw [List.map_cons, chess.parseRanks,
      if_neg (by have := rowString_length (chess.cellsAtRow row) hcellen; omega),
      rowString_parse (chess.cellsAtRow row) k acc hcellen]
    have hcells : chess.cellsAtRow row
        = (List.range 8).map (fun (j : Nat) => chess.cellAt row (1 + (j : Int))) := by
      rw [chess.cellsAtRow]
      exact List.map_congr_left (fun j hj => by rw [Int.add_comm])
    have hread : chess.rowPieces k 1 (chess.cellsAtRow row) = row := by
      rw [hcells]
      apply rowPieces_cells_eq k 8 1 row hrow
      intro bp hm
      have := hvrow bp hm
      simp only [chess.BoardPosition.IsValid, Bool.and_eq_true, decide_eq_true_eq] at this
      push_cast
      omega
    rw [hread]
    show chess.parseRanks (rest.map (fun row => chess.rowString (chess.cellsAtRow row)))
        (k - 1) (acc ++ row) = Except.ok (acc ++ (row :: rest).flatten)
    rw [ih (k - 1) _ hrest
      (fun bp hm => hvalid bp (by rw [List.flatten_cons]; exact List.mem_append_right _ hm))]
    rw [List.flatten_cons, List.append_assoc]

/-- `ChessBoard::Fen` on a canonical valid board: the placement is the
join of the per-row strings, followed by the side-to-move letter and the
fixed `"- - 0 1"` placeholders. -/
theorem Fen_eq_of_canonical (b : chess.ChessBoard) (rows : List (List chess.BoardPiece))
    (hp : b.pieces_ = rows.flatten) (hcanon : chess.RanksCanon 8 rows)
    (hlen : rows.length = 8)
    (hvalid : ∀ bp ∈ b.pieces_, bp.position.IsValid = true) :
    b.Fen = some (String.mk
      (chess.intercalateChar '/'
          (rows.map (fun row => chess.rowString (chess.cellsAtRow row))) ++
        ' ' :: (if b.white_to_move_ then 'w' else 'b') ::
        [' ', '-', ' ', '-', ' ', '0', ' ', '1'])) := by
  have hrows_eq : (List.range 8).map (fun i => chess.rowString ((List.range 8).map
      (fun j => chess.gridOfRows chess.emptyGrid 8 rows i j)))
      = rows.map (fun row => chess.rowString (chess.cellsAtRow row)) := by
    have hstep : (List.range 8).map (fun i => chess.rowString ((List.range 8).map
        (fun j => chess.gridOfRows chess.emptyGrid 8 rows i j)))
        = (List.range 8).map
            (fun i => chess.rowString (chess.cellsAtRow (rows.getD i []))) := by
      apply List.map_congr_left
      intro i hi
      congr 1
      rw [chess.cellsAtRow]
      apply List.map_congr_left
      intro j hj
      exact gridOfRows_top rows hlen i j (List.mem_range.mp hi)
    rw [hstep, ← hlen, range_map_getD ([] : List chess.BoardPiece)
      (fun row => chess.rowString (chess.cellsAtRow row)) rows]
  rw [chess.ChessBoard.Fen, hp,
    placePieces_rows rows chess.emptyGrid 8 hcanon (hp ▸ hvalid) (by norm_num)
      (by rw [hlen]; norm_num)]
  simp only [hrows_eq]

/-! ## Claim C1: the FEN round trip -/

/-- C1 (amended): for a board parsed from any accepted FEN whose pieces
all lie inside the 8x8 board, serialization succeeds, parsing the result
reproduces the very same board (placement and side-to-move included), a
second serialization returns the identical string, and the serialized
string ends with the fixed placeholder fields `"- - 0 1"`. -/
theorem FromFen_Fen_roundtrip (s : String) (b : chess.ChessBoard)
    (h : chess.ChessBoard.FromFen s = Except.ok b)
    (hvalid : ∀ bp ∈ b.pieces_, bp.position.IsValid = true) :
    ∃ f : String, b.Fen = some f ∧
      chess.ChessBoard.FromFen f = Except.ok b ∧
      (chess.ChessBoard.FromFen f).map (fun b2 => b2.Fen) = Except.ok (some f) ∧
      ∃ placement : List Char,
        f = String.mk (placement ++
          ' ' :: (if b.white_to_move_ then 'w' else 'b') ::
          [' ', '-', ' ', '-', ' ', '0', ' ', '1']) := by
  obtain ⟨ppd, rest, hs, hlen8, hparse, hinfo, hwtm⟩ := FromFen_ok_inv s b h
  obtain ⟨rows, hpieces0, hcanon, hrowlen⟩ := parseRanks_ok_shape _ 8 [] _ hparse
  rw [List.nil_append] at hpieces0
  have hrowlen8 : rows.length = 8 := by rw [hrowlen, hlen8]
  have hfen := Fen_eq_of_canonical b rows hpieces0 hcanon hrowlen8 hvalid
  have hlen_cells : ∀ row : List chess.BoardPiece, (chess.cellsAtRow row).length = 8 := by
    intro row; rw [chess.cellsAtRow]; simp
  have hnoslash : ∀ g ∈ rows.map (fun row => chess.rowString (chess.cellsAtRow row)),
      '/' ∉ g := by
    intro g hg hc
    obtain ⟨row, hrowm, rfl⟩ := List.mem_map.mp hg
    exact (rowString_chars _ (hlen_cells row) '/' hc).1 rfl
  have hnospace_groups :
      ∀ g ∈ rows.map (fun row => chess.rowString (chess.cellsAtRow row)), ' ' ∉ g := by
    intro g hg hc
    obtain ⟨row, hrowm, rfl⟩ := List.mem_map.mp hg
    exact (rowString_chars _ (hlen_cells row) ' ' hc).2 rfl
  have hplace_nospace : ' ' ∉ chess.intercalateChar '/'
      (rows.map (fun row => chess.rowString (chess.cellsAtRow row))) := by
    intro hmem
    rcases intercalateChar_chars '/' _ ' ' hmem with heq | ⟨g, hg, hcg⟩
    · exact absurd heq (by decide)
    · exact hnospace_groups g hg hcg
  have hrowstrs_ne :
      rows.map (fun row => chess.rowString (chess.cellsAtRow row)) ≠ [] := by
    intro hnil
    have := congrArg List.length hnil
    simp [hrowlen8] at this
  have hsplit : chess.splitOnChar ' '
      (chess.intercalateChar '/'
          (rows.map (fun row => chess.rowString (chess.cellsAtRow row))) ++
        ' ' :: (if b.white_to_move_ then 'w' else 'b') ::
        [' ', '-', ' ', '-', ' ', '0', ' ', '1'])
      = chess.intercalateChar '/'
          (rows.map (fun row => chess.rowString (chess.cellsAtRow row))) ::
        [(if b.white_to_move_ then 'w' else 'b')] :: [['-'], ['-'], ['0'], ['1']] := by
    rw [splitOnChar_append ' ' _ _ hplace_nospace]
    cases hw : b.white_to_move_ <;> rfl
  have hffen : chess.ChessBoard.FromFen (String.mk
      (chess.intercalateChar '/'
          (rows.map (fun row => chess.rowString (chess.cellsAtRow row))) ++
        ' ' :: (if b.white_to_move_ then 'w' else 'b') ::
        [' ', '-', ' ', '-', ' ', '0', ' ', '1'])) = Except.ok b := by
    rw [FromFen_eq_of_split _
      (chess.intercalateChar '/'
        (rows.map (fun row => chess.rowString (chess.cellsAtRow row))))
      ([(if b.white_to_move_ then 'w' else 'b')] :: [['-'], ['-'], ['0'], ['1']])
      hsplit]
    rw [splitOnChar_intercalate '/' _ hrowstrs_ne hnoslash]
    rw [if_neg (by simp [hrowlen8])]
    rw [parseRanks_of_rowStrings rows 8 [] hcanon (by rw [← hpieces0]; exact hvalid)]
    rw [List.nil_append]
    obtain ⟨bp2, bi2, bw2⟩ := b
    simp only at hpieces0 hinfo
    subst hpieces0
    subst hinfo
    cases bw2 <;> rfl
  refine ⟨String.mk
      (chess.intercalateChar '/'
          (rows.map (fun row => chess.rowString (chess.cellsAtRow row))) ++
        ' ' :: (if b.white_to_move_ then 'w' else 'b') ::
        [' ', '-', ' ', '-', ' ', '0', ' ', '1']),
    hfen, hffen, ?_, ⟨chess.intercalateChar '/'
      (rows.map (fun row => chess.rowString (chess.cellsAtRow row))), rfl⟩⟩
  rw [hffen]
  simp only [Except.map]
  rw [hfen]

/-- Counterexample to C1 as stated: the FEN
`"9p/8/8/8/8/8/8/8 w - - 0 1"` is accepted by `ChessBoard::FromFen`
(so its board was "successfully built from a syntactically valid FEN"),
but serializing that board places its file-10 pawn outside the 8x8
grid — an out-of-bounds vector write in the C++ — so `FromFen(b.Fen())`
cannot succeed. -/
theorem FromFen_Fen_roundtrip_counterexample :
    chess.ChessBoard.FromFen "9p/8/8/8/8/8/8/8 w - - 0 1" =
      Except.ok
        { pieces_ := [{ position := { file := 10, rank := 8 }
                        piece := { type := chess.PieceType.Pawn, color := chess.Color.Black } }]
          info_ := ""
          white_to_move_ := true } ∧
    ({ pieces_ := [{ position := { file := 10, rank := 8 }
                     piece := { type := chess.PieceType.Pawn, color := chess.Color.Black } }]
       info_ := ""
       white_to_move_ := true } : chess.ChessBoard).Fen = none :=
  ⟨rfl, rfl⟩

/-- Witness for C1 (amended) on the empty board's FEN. -/
theorem FromFen_Fen_roundtrip_witness :
    (chess.ChessBoard.mk [] "" true).Fen = some "8/8/8/8/8/8/8/8 w - - 0 1" ∧
    chess.ChessBoard.FromFen "8/8/8/8/8/8/8/8 w - - 0 1"
      = Except.ok (chess.ChessBoard.mk [] "" true) := by
  have h := FromFen_Fen_roundtrip "8/8/8/8/8/8/8/8 w - - 0 1"
    (chess.ChessBoard.mk [] "" true) rfl (by decide)
  obtain ⟨f, h1, h2, -, -⟩ := h
  have hfen : (chess.ChessBoard.mk [] "" true).Fen
      = some "8/8/8/8/8/8/8/8 w - - 0 1" := rfl
  have hf : f = "8/8/8/8/8/8/8/8 w - - 0 1" := by
    rw [hfen] at h1
    exact (Option.some.injEq _ _).mp h1.symm
  exact ⟨hfen, hf ▸ h2⟩
